import Mathlib

set_option maxHeartbeats 1000000

/-!
Verification of the sentence-extraction core (package `util`).

Texts are modelled as `List Char` (Go iterates over runes, i.e. Unicode code
points). Go maps from rune to bool become `Char → Bool` functions; the Go
sentinel `-1` of the scanning functions becomes `Option Nat`. Backward scans
are modelled with a shifted index: a Lean argument `i + 1` stands for the Go
index `i`, and `0` stands for the Go index `-1` (before the start of the
text). Forward scans walk the suffix list and carry the offset from the scan
start, so `findNextSplitPoint` here takes the suffix `text[startPos:]` and
returns an offset relative to `startPos`; `findNextSplitPointAbs` restores
the absolute-index signature of the Go function. The extraction loop of
`ExtractSmartSentences` is driven by a fuel argument instantiated with
`text.length + 1`, which suffices because the cursor advances by at least one
code point per iteration (the bound is proved about `findNextSplitPoint`
below). Out-of-range list reads use the placeholder `nul`; every read the Go
code performs is in bounds, so the placeholder is never the value of an
inspected character there.
-/

/-- Placeholder character for out-of-range `getD` reads. -/
def nul : Char := Char.ofNat 0

/-- The three whitespace characters skipped by the smart-extraction loop and
by `trimSpaceRunes` in the source: space, tab, newline. -/
def isWS3 (c : Char) : Bool := c == ' ' || c == '\t' || c == '\n'

/-- Space or tab, as tested by the ordinal lookback and the newline lookahead. -/
def isSpaceTab (c : Char) : Bool := c == ' ' || c == '\t'

/-- ASCII digit test `'0' <= c && c <= '9'` from the source. -/
def isDigitChar (c : Char) : Bool := decide ('0' ≤ c) && decide (c ≤ '9')

/-- Go `unicode.IsSpace` (the White_Space property), used by `strings.TrimSpace`. -/
def unicodeIsSpace (c : Char) : Bool :=
  (decide (9 ≤ c.toNat) && decide (c.toNat ≤ 13)) || c.toNat == 32 ||
  c.toNat == 0x85 || c.toNat == 0xA0 || c.toNat == 0x1680 ||
  (decide (0x2000 ≤ c.toNat) && decide (c.toNat ≤ 0x200A)) ||
  c.toNat == 0x2028 || c.toNat == 0x2029 || c.toNat == 0x202F ||
  c.toNat == 0x205F || c.toNat == 0x3000

/-- Go `strings.TrimSpace` on the rune sequence: drop Unicode whitespace from
both ends. -/
def trimSpace (s : List Char) : List Char :=
  ((s.dropWhile unicodeIsSpace).reverse.dropWhile unicodeIsSpace).reverse

/-- `trimSpaceRunes` from the source: the two-pointer trim of leading and
trailing space, tab and newline characters. -/
def trimSpaceRunes (s : List Char) : List Char :=
  ((s.dropWhile isWS3).reverse.dropWhile isWS3).reverse

/-- The strict separator map `punctuationMap` of the source. -/
def punctuationMap (c : Char) : Bool :=
  c == '。' || c == '？' || c == '！' || c == '；' || c == '：' || c == '\n' ||
  c == '.' || c == '?' || c == '!' || c == ';' || c == ':'

/-- The comma-permissive separator map `firstPunctuation` of the source. -/
def firstPunctuation (c : Char) : Bool :=
  c == '，' || c == ',' || c == '。' || c == '？' || c == '！' || c == '；' ||
  c == '：' || c == '\n' || c == '.' || c == '?' || c == '!' || c == ';' || c == ':'

/-- The slice `sentenceEndPunctuation` of the source. -/
def sentenceEndPunctuation : List Char := ['.', '。', '!', '！', '?', '？', '\n']

/-- The slice `sentencePausePunctuation` of the source. -/
def sentencePausePunctuation : List Char := [',', '，', ';', '；', ':', '：']

/-- `IsSentenceEndPunctuation`: linear scan of `sentenceEndPunctuation`. -/
def IsSentenceEndPunctuation (r : Char) : Bool :=
  sentenceEndPunctuation.any (fun p => r == p)

/-- `IsSentencePausePunctuation`: linear scan of `sentencePausePunctuation`. -/
def IsSentencePausePunctuation (r : Char) : Bool :=
  sentencePausePunctuation.any (fun p => r == p)

/-- Backward skip over spaces and tabs in `isNumberPrefix`. The argument and
result use the shifted encoding: `i + 1` stands for Go index `i`. -/
def skipSpaceTabBack (text : List Char) : Nat → Nat
  | 0 => 0
  | i+1 => if isSpaceTab (text.getD i nul) then skipSpaceTabBack text i else i + 1

/-- Backward digit count in `isNumberPrefix` (shifted encoding). `none` models
the early `return false` when a fourth digit is seen; otherwise the result is
the final shifted position and whether at least one digit was found. -/
def digitRunBack (text : List Char) : Nat → Nat → Option (Nat × Bool)
  | 0, cnt => some (0, decide (0 < cnt))
  | i+1, cnt =>
    if isDigitChar (text.getD i nul) then
      if 3 < cnt + 1 then none else digitRunBack text i (cnt + 1)
    else some (i + 1, decide (0 < cnt))

/-- `isNumberPrefix text pos`: the period at `pos` is an ordinal marker. -/
def isNumberPrefix (text : List Char) (pos : Nat) : Bool :=
  if pos = 0 || !(text.getD pos nul == '.') then false
  else
    match digitRunBack text (skipSpaceTabBack text pos) 0 with
    | none => false
    | some (0, found) => found
    | some (k+1, found) =>
      if !(text.getD k nul == ' ') && !(text.getD k nul == '\t') &&
         !(text.getD k nul == '\n') then false
      else found

/-- Body of `findLastPunctuation`: backward scan with the shifted encoding
(`k` is one past the Go index currently examined). -/
def findLastPunctuationAux (text : List Char) (sep : Char → Bool) : Nat → Option Nat
  | 0 => none
  | i+1 =>
    if sep (text.getD i nul) then
      if text.getD i nul == '.' && isNumberPrefix text i then
        findLastPunctuationAux text sep i
      else some i
    else findLastPunctuationAux text sep i

/-- `findLastPunctuation`: last boundary position, ordinal periods skipped;
`none` models the Go result `-1`. -/
def findLastPunctuation (text : List Char) (sep : Char → Bool) : Option Nat :=
  findLastPunctuationAux text sep text.length

/-- First element of a suffix is an ASCII digit (the lookahead test after a
newline in `findNextSplitPoint`). -/
def headIsDigit : List Char → Bool
  | [] => false
  | c :: _ => isDigitChar c

/-- Forward skip over spaces and tabs bounded by the window end `W`, from the
newline lookahead of `findNextSplitPoint`. `p` is the offset of the suffix
`l` from the scan start; the result is the stopping offset with its suffix. -/
def skipSpaceTab (W : Nat) : List Char → Nat → Nat × List Char
  | [], p => (p, [])
  | c :: l, p =>
    if decide (p < W) && isSpaceTab c then skipSpaceTab W l (p + 1) else (p, c :: l)

/-- Window loop of `findNextSplitPoint` over the suffix starting at the scan
start; `i` is the offset of the current suffix, `W` the window length
`min maxLen (remaining length)`. A newline is a split point only when, after
skipping spaces and tabs, a digit sits at an offset `p` with `p + 2 < W`
(Go: `nextPos < endPos-2`); other newlines are skipped by `continue` without
consulting the separator map. -/
def windowScan (sep : Char → Bool) (W : Nat) : List Char → Nat → Option Nat
  | [], _ => none
  | c :: l, i =>
    if i < W then
      if c == '\n' then
        if (skipSpaceTab W l (i + 1)).1 + 2 < W ∧
           headIsDigit (skipSpaceTab W l (i + 1)).2 = true then some i
        else windowScan sep W l (i + 1)
      else if sep c then some i
      else windowScan sep W l (i + 1)
    else none

/-- Fallback loop of `findNextSplitPoint` beyond the window: first newline or
separator in the rest of the text. -/
def boundaryScan (sep : Char → Bool) : List Char → Nat → Option Nat
  | [], _ => none
  | c :: l, i => if c == '\n' || sep c then some i else boundaryScan sep l (i + 1)

/-- `findNextSplitPoint` on the suffix `text[startPos:]`, returning an offset
relative to `startPos`; `none` models the Go result `-1`. -/
def findNextSplitPoint (rest : List Char) (maxLen : Nat) (sep : Char → Bool) : Option Nat :=
  match windowScan sep (min maxLen rest.length) rest 0 with
  | some i => some i
  | none =>
    if min maxLen rest.length < rest.length then
      boundaryScan sep (rest.drop (min maxLen rest.length)) (min maxLen rest.length)
    else none

/-- `findNextSplitPoint` with the absolute-index signature of the Go code. -/
def findNextSplitPointAbs (text : List Char) (startPos maxLen : Nat) (sep : Char → Bool) :
    Option Nat :=
  match findNextSplitPoint (text.drop startPos) maxLen sep with
  | some j => some (startPos + j)
  | none => none

/-- Loop body of `ExtractSmartSentences`. `cur` is the unprocessed suffix of
the text; the fuel bounds the iteration count and `text.length + 1` always
suffices because each iteration consumes at least the split character. -/
def smartLoop (sep : Char → Bool) (minLen : Int) (maxLen : Nat) :
    Nat → List Char → List (List Char) → List Char → List (List Char) × List Char
  | 0, _, sentences, remaining => (sentences, remaining)
  | fuel+1, cur, sentences, remaining =>
    match cur.dropWhile isWS3 with
    | [] => (sentences, remaining)
    | a :: l =>
      match findNextSplitPoint (a :: l) maxLen sep with
      | none =>
        let segment := trimSpaceRunes (a :: l)
        (sentences, if 0 < segment.length then segment else remaining)
      | some j =>
        let segment := trimSpaceRunes ((a :: l).take (j + 1))
        if minLen ≤ (segment.length : Int) ∧
           sep (segment.getD (segment.length - 1) nul) = true then
          smartLoop sep minLen maxLen fuel ((a :: l).drop (j + 1))
            (sentences ++ [segment]) remaining
        else
          smartLoop sep minLen maxLen fuel ((a :: l).drop (j + 1)) sentences
            (if 0 < segment.length then
               (if 0 < remaining.length then remaining ++ ' ' :: segment else segment)
             else remaining)

/-- `ExtractSmartSentences` with an explicit separator map. -/
def extractSmartWithSep (sep : Char → Bool) (text : List Char) (minLen : Int)
    (maxLen : Nat) : List (List Char) × List Char :=
  smartLoop sep minLen maxLen (text.length + 1) text [] []

/-- `ExtractSmartSentences`: the permissive map is selected exactly when
`isFirst` is true. -/
def ExtractSmartSentences (text : List Char) (minLen : Int) (maxLen : Nat)
    (isFirst : Bool) : List (List Char) × List Char :=
  extractSmartWithSep (if isFirst then firstPunctuation else punctuationMap)
    text minLen maxLen

/-- Loop of `ExtractCompleteSentences`: accumulate runes, emit the trimmed
accumulator at each sentence-end punctuation mark, return the trimmed
leftover accumulator as the remainder. -/
def extractCompleteLoop : List Char → List Char → List (List Char) × List Char
  | [], cur => ([], trimSpace cur)
  | r :: rest, cur =>
    if IsSentenceEndPunctuation r then
      (if (trimSpace (cur ++ [r])).isEmpty then (extractCompleteLoop rest []).1
       else trimSpace (cur ++ [r]) :: (extractCompleteLoop rest []).1,
       (extractCompleteLoop rest []).2)
    else extractCompleteLoop rest (cur ++ [r])

/-- `ExtractCompleteSentences` from the source. -/
def ExtractCompleteSentences (text : List Char) : List (List Char) × List Char :=
  if text.isEmpty then ([], []) else extractCompleteLoop text []

/-- `ContainsSentenceSeparator` from the source. -/
def ContainsSentenceSeparator (s : List Char) (isFirst : Bool) : Bool :=
  s.any (fun r => if isFirst then firstPunctuation r else punctuationMap r)

/-- UTF-8 encoding of one code point (the byte layout Go strings use).
`IsNumberWithDot` is the one function of the source that indexes the string
by bytes rather than runes, so its embedding works on this byte sequence. -/
def utf8Bytes (c : Char) : List Nat :=
  if c.toNat < 0x80 then [c.toNat]
  else if c.toNat < 0x800 then
    [0xC0 + c.toNat / 0x40, 0x80 + c.toNat % 0x40]
  else if c.toNat < 0x10000 then
    [0xE0 + c.toNat / 0x1000, 0x80 + (c.toNat / 0x40) % 0x40, 0x80 + c.toNat % 0x40]
  else
    [0xF0 + c.toNat / 0x40000, 0x80 + (c.toNat / 0x1000) % 0x40,
     0x80 + (c.toNat / 0x40) % 0x40, 0x80 + c.toNat % 0x40]

/-- Go `unicode.IsDigit(rune(b))` for a single byte `b < 0x100`: the code
points U+0000..U+00FF contain no decimal digits (category Nd) besides ASCII
0-9 — the Latin-1 superscripts are category No — so the byte test is exactly
the ASCII digit range. -/
def isDigitByte (b : Nat) : Bool := decide (0x30 ≤ b) && decide (b ≤ 0x39)

/-- Byte-level body of `IsNumberWithDot`: at least two bytes, the last byte a
period, every earlier byte a digit (the source's guarded index
`trimmed[len(trimmed)-1]` and its byte loop). -/
def numberWithDotBytes (bs : List Nat) : Bool :=
  if bs.length < 2 || !(bs.getD (bs.length - 1) 0 == 0x2E) then false
  else (bs.take (bs.length - 1)).all isDigitByte

/-- `IsNumberWithDot` from the source (the spec's isNumericOrdinal): trim
Unicode whitespace, then run the byte-level check on the UTF-8 bytes of the
trimmed text. -/
def IsNumberWithDot (s : List Char) : Bool :=
  numberWithDotBytes (((trimSpace s).map utf8Bytes).flatten)

/-- Recursive form of the byte-level check used to relate the index loop of
`numberWithDotBytes` to the character-level description. -/
def bytesThenDot : List Nat → Bool
  | [] => false
  | [b] => b == 0x2E
  | b :: bs => isDigitByte b && bytesThenDot bs

/-- Specification-side, character-level description of a numeric ordinal: a
run of ASCII digits terminated by a single period. -/
def digitsThenDot : List Char → Bool
  | [] => false
  | [c] => c == '.'
  | c :: rest => isDigitChar c && digitsThenDot rest

/-- Modelled from the spec: eager extraction splits the text into maximal
chunks each ending at a terminal punctuation mark, plus an unterminated
trailing piece; sentences are the trimmed non-empty chunks and the remainder
is the trimmed trailing piece. Used as the specification side of the
refinement proof for `ExtractCompleteSentences`. -/
def splitAfterTerminals : List Char → List (List Char) × List Char
  | [] => ([], [])
  | c :: rest =>
    if IsSentenceEndPunctuation c then
      ([c] :: (splitAfterTerminals rest).1, (splitAfterTerminals rest).2)
    else
      (match (splitAfterTerminals rest).1 with
       | [] => []
       | s :: cs => (c :: s) :: cs,
       match (splitAfterTerminals rest).1 with
       | [] => c :: (splitAfterTerminals rest).2
       | _ :: _ => (splitAfterTerminals rest).2)

/-- Join a pending accumulator onto the chunk decomposition (invariant shape
of the refinement proof below). -/
def completeJoin (cur : List Char) (chunks : List (List Char)) (trail : List Char) :
    List (List Char) × List Char :=
  match chunks with
  | [] => ([], trimSpace (cur ++ trail))
  | s :: cs =>
    ((((cur ++ s) :: cs).map trimSpace).filter (fun x => !x.isEmpty), trimSpace trail)

/-- Specification-side form of eager extraction (see `splitAfterTerminals`). -/
def extractCompleteSpec (text : List Char) : List (List Char) × List Char :=
  (((splitAfterTerminals text).1.map trimSpace).filter (fun x => !x.isEmpty),
   trimSpace (splitAfterTerminals text).2)

/-- Window-scan split-point predicate at offset `i` of the suffix `rest`
(used to characterize `windowScan` as a first-match search). -/
def splitPointHere (sep : Char → Bool) (W : Nat) (rest : List Char) (i : Nat) : Bool :=
  match rest.drop i with
  | [] => false
  | c :: l =>
    if c == '\n' then
      decide ((skipSpaceTab W l (i + 1)).1 + 2 < W) &&
        headIsDigit (skipSpaceTab W l (i + 1)).2
    else sep c

/-- Fallback-scan boundary predicate at offset `i` of the suffix `rest`. -/
def boundaryHere (sep : Char → Bool) (rest : List Char) (i : Nat) : Bool :=
  match rest.drop i with
  | [] => false
  | c :: _ => c == '\n' || sep c

/- Concrete inputs and expected values used by the closed theorems below. -/

def tHiHelloWorld : List Char := "Hi. Hello world.".data
def sHelloWorldDot : List Char := "Hello world.".data
def sHiDot : List Char := "Hi.".data
def tAbCd : List Char := "ab. cd".data
def sCd : List Char := "cd".data
def tListWhole : List Char := "a\n1. b".data
def tListChunk1 : List Char := "a\n1.".data
def tListChunk2 : List Char := " b".data
def sOneDot : List Char := "1.".data
def sB : List Char := "b".data
def sANlOneDot : List Char := "a\n1.".data
def tHowAreYou : List Char := "Hi, how are you?".data
def sHiComma : List Char := "Hi,".data
def sHowAreYou : List Char := "how are you?".data
def tHello : List Char := "Hello".data
def tHelloWorldLower : List Char := "hello world".data
def tOrdinalA : List Char := "1. a".data
def tAbDot : List Char := "ab.".data
def tANlB : List Char := "a\nb".data
def tADot : List Char := "a.".data
def sTwelveDot : List Char := "12.".data
def tFullWidthDigits : List Char := "１２.".data

/-! Helper lemmas about the scanning loops. -/

theorem windowScan_some_bound (sep : Char → Bool) (W : Nat) :
    ∀ (l : List Char) (i r : Nat), windowScan sep W l i = some r → i ≤ r ∧ r < W := by
  intro l
  induction l with
  | nil => intro i r h; exact absurd h (by simp [windowScan])
  | cons c l ih =>
    intro i r h
    unfold windowScan at h
    split at h
    · split at h
      · split at h
        · injection h with h; omega
        · have := ih (i + 1) r h; omega
      · split at h
        · injection h with h; omega
        · have := ih (i + 1) r h; omega
    · exact absurd h (by simp)

theorem boundaryScan_some_bound (sep : Char → Bool) :
    ∀ (l : List Char) (i r : Nat), boundaryScan sep l i = some r →
      i ≤ r ∧ r < i + l.length := by
  intro l
  induction l with
  | nil => intro i r h; exact absurd h (by simp [boundaryScan])
  | cons c l ih =>
    intro i r h
    unfold boundaryScan at h
    split at h
    · injection h with h
      simp [List.length_cons]
      omega
    · have := ih (i + 1) r h
      simp [List.length_cons]
      omega

theorem findNextSplitPoint_some_bound (rest : List Char) (maxLen : Nat)
    (sep : Char → Bool) (j : Nat) (h : findNextSplitPoint rest maxLen sep = some j) :
    j < rest.length := by
  unfold findNextSplitPoint at h
  cases hw : windowScan sep (min maxLen rest.length) rest 0 with
  | some i =>
    rw [hw] at h
    have hi := windowScan_some_bound sep (min maxLen rest.length) rest 0 i hw
    have hij : i = j := by injection h
    omega
  | none =>
    rw [hw] at h
    have h' : (if min maxLen rest.length < rest.length then
        boundaryScan sep (rest.drop (min maxLen rest.length)) (min maxLen rest.length)
      else none) = some j := h
    by_cases hlt : min maxLen rest.length < rest.length
    · rw [if_pos hlt] at h'
      have := boundaryScan_some_bound sep _ _ _ h'
      rw [List.length_drop] at this
      omega
    · rw [if_neg hlt] at h'
      exact absurd h' (by simp)

theorem findLastPunctuationAux_spec (text : List Char) (sep : Char → Bool) :
    ∀ (k i : Nat), findLastPunctuationAux text sep k = some i →
      sep (text.getD i nul) = true ∧
      ¬(text.getD i nul = '.' ∧ isNumberPrefix text i = true) := by
  intro k
  induction k with
  | zero => intro i h; exact absurd h (by simp [findLastPunctuationAux])
  | succ k ih =>
    intro i h
    rw [findLastPunctuationAux] at h
    by_cases h1 : sep (text.getD k nul) = true
    · rw [if_pos h1] at h
      by_cases h2 : (text.getD k nul == '.' && isNumberPrefix text k) = true
      · rw [if_pos h2] at h
        exact ih i h
      · rw [if_neg h2] at h
        have hik : k = i := by injection h
        subst hik
        refine ⟨h1, fun hc => h2 ?_⟩
        simp only [Bool.and_eq_true, beq_iff_eq]
        exact ⟨hc.1, hc.2⟩
    · rw [if_neg h1] at h
      exact ih i h

theorem dropWhile_self_idem (p : Char → Bool) (l : List Char) :
    (l.dropWhile p).dropWhile p = l.dropWhile p := by
  induction l with
  | nil => rfl
  | cons a l ih =>
    by_cases h : p a = true
    · rw [List.dropWhile_cons, if_pos h]; exact ih
    · rw [List.dropWhile_cons, if_neg h, List.dropWhile_cons, if_neg h]

theorem filter_not_dropWhile (p : Char → Bool) (l : List Char) :
    (l.dropWhile p).filter (fun c => !p c) = l.filter (fun c => !p c) := by
  induction l with
  | nil => rfl
  | cons a l ih =>
    by_cases h : p a = true
    · rw [List.dropWhile_cons, if_pos h, ih, List.filter_cons]
      simp [h]
    · rw [List.dropWhile_cons, if_neg h]

theorem filter_not_trimSpace (l : List Char) :
    (trimSpace l).filter (fun c => !unicodeIsSpace c) =
      l.filter (fun c => !unicodeIsSpace c) := by
  unfold trimSpace
  rw [List.filter_reverse, filter_not_dropWhile, List.filter_reverse,
    filter_not_dropWhile, List.reverse_reverse]

theorem extractCompleteLoop_filter (text : List Char) : ∀ cur : List Char,
    ((extractCompleteLoop text cur).1.flatten ++ (extractCompleteLoop text cur).2).filter
        (fun c => !unicodeIsSpace c) =
      (cur ++ text).filter (fun c => !unicodeIsSpace c) := by
  induction text with
  | nil =>
    intro cur
    simp [extractCompleteLoop, filter_not_trimSpace]
  | cons r rest ih =>
    intro cur
    have hres := ih []
    rw [List.nil_append] at hres
    have hsplit : (cur ++ r :: rest).filter (fun c => !unicodeIsSpace c) =
        (cur ++ [r]).filter (fun c => !unicodeIsSpace c) ++
          rest.filter (fun c => !unicodeIsSpace c) := by
      rw [List.append_cons, List.filter_append]
    rw [extractCompleteLoop]
    by_cases h : IsSentenceEndPunctuation r = true
    · rw [if_pos h]
      by_cases hs : (trimSpace (cur ++ [r])).isEmpty = true
      · rw [if_pos hs]
        have hnil : trimSpace (cur ++ [r]) = [] := List.isEmpty_iff.mp hs
        have hfil : (cur ++ [r]).filter (fun c => !unicodeIsSpace c) = [] := by
          rw [← filter_not_trimSpace, hnil]
          rfl
        rw [hsplit, hfil, List.nil_append]
        exact hres
      · rw [if_neg hs]
        rw [hsplit, ← filter_not_trimSpace (cur ++ [r]), ← hres]
        show ((trimSpace (cur ++ [r]) :: (extractCompleteLoop rest []).1).flatten ++
            (extractCompleteLoop rest []).2).filter (fun c => !unicodeIsSpace c) = _
        rw [List.flatten_cons, List.append_assoc, List.filter_append]
    · rw [if_neg h]
      have := ih (cur ++ [r])
      rw [List.append_assoc, List.singleton_append] at this
      exact this

theorem extractCompleteLoop_splits (text : List Char) : ∀ cur : List Char,
    extractCompleteLoop text cur =
      completeJoin cur (splitAfterTerminals text).1 (splitAfterTerminals text).2 := by
  induction text with
  | nil =>
    intro cur
    simp [extractCompleteLoop, splitAfterTerminals, completeJoin]
  | cons c rest ih =>
    intro cur
    rw [extractCompleteLoop, splitAfterTerminals]
    by_cases h : IsSentenceEndPunctuation c = true
    · rw [if_pos h, if_pos h]
      have hub : extractCompleteLoop rest [] =
          (((splitAfterTerminals rest).1.map trimSpace).filter (fun x => !x.isEmpty),
           trimSpace (splitAfterTerminals rest).2) := by
        rw [ih []]
        cases hsp : (splitAfterTerminals rest).1 with
        | nil => simp [completeJoin]
        | cons s cs => simp [completeJoin]
      rw [hub]
      by_cases hs : (trimSpace (cur ++ [c])).isEmpty = true
      · simp [completeJoin, hs]
      · simp [completeJoin, hs]
    · rw [if_neg h, if_neg h]
      rw [ih (cur ++ [c])]
      cases hsp : (splitAfterTerminals rest).1 with
      | nil => simp [completeJoin, hsp, List.append_assoc]
      | cons s cs => simp [completeJoin, hsp, List.append_assoc]

theorem extractCompleteLoop_no_terminal : ∀ (l cur : List Char),
    (∀ c ∈ l, IsSentenceEndPunctuation c = false) →
    extractCompleteLoop l cur = ([], trimSpace (cur ++ l)) := by
  intro l
  induction l with
  | nil => intro cur _; simp [extractCompleteLoop]
  | cons c rest ih =>
    intro cur h
    rw [extractCompleteLoop,
      if_neg (by rw [h c (List.mem_cons_self c rest)]; simp)]
    rw [ih (cur ++ [c]) (fun x hx => h x (List.mem_cons_of_mem c hx))]
    rw [List.append_assoc, List.singleton_append]

theorem isEnd_imp_strict (c : Char) (h : IsSentenceEndPunctuation c = true) :
    punctuationMap c = true := by
  revert h
  simp [IsSentenceEndPunctuation, sentenceEndPunctuation, punctuationMap, beq_iff_eq]
  tauto

theorem isEnd_imp_first (c : Char) (h : IsSentenceEndPunctuation c = true) :
    firstPunctuation c = true := by
  revert h
  simp [IsSentenceEndPunctuation, sentenceEndPunctuation, firstPunctuation, beq_iff_eq]
  tauto

theorem windowScan_none_of_no_boundary (sep : Char → Bool) (W : Nat) :
    ∀ (l : List Char) (i : Nat), (∀ c ∈ l, ¬c = '\n' ∧ sep c = false) →
      windowScan sep W l i = none := by
  intro l
  induction l with
  | nil => intro i _; rfl
  | cons c l ih =>
    intro i h
    have hc := h c (List.mem_cons_self c l)
    have h1 : ¬((c == '\n') = true) := by simp only [beq_iff_eq]; exact hc.1
    have h2 : ¬((sep c) = true) := by rw [hc.2]; simp
    rw [windowScan]
    by_cases hiW : i < W
    · rw [if_pos hiW, if_neg h1, if_neg h2]
      exact ih (i + 1) (fun x hx => h x (List.mem_cons_of_mem c hx))
    · rw [if_neg hiW]

theorem boundaryScan_none_of_no_boundary (sep : Char → Bool) :
    ∀ (l : List Char) (i : Nat), (∀ c ∈ l, ¬c = '\n' ∧ sep c = false) →
      boundaryScan sep l i = none := by
  intro l
  induction l with
  | nil => intro i _; rfl
  | cons c l ih =>
    intro i h
    have hc := h c (List.mem_cons_self c l)
    have h1 : ¬((c == '\n' || sep c) = true) := by
      simp only [Bool.or_eq_true, beq_iff_eq, hc.2]
      simp [hc.1]
    rw [boundaryScan, if_neg h1]
    exact ih (i + 1) (fun x hx => h x (List.mem_cons_of_mem c hx))

theorem findNextSplitPoint_none_of_no_boundary (rest : List Char) (maxLen : Nat)
    (sep : Char → Bool) (h : ∀ c ∈ rest, ¬c = '\n' ∧ sep c = false) :
    findNextSplitPoint rest maxLen sep = none := by
  unfold findNextSplitPoint
  rw [windowScan_none_of_no_boundary sep _ rest 0 h]
  have hb := boundaryScan_none_of_no_boundary sep
    (rest.drop (min maxLen rest.length)) (min maxLen rest.length)
    (fun c hc => h c (List.drop_subset _ rest hc))
  show (if min maxLen rest.length < rest.length then
      boundaryScan sep (rest.drop (min maxLen rest.length)) (min maxLen rest.length)
    else none) = none
  rw [hb]
  simp

theorem smartLoop_no_boundary (sep : Char → Bool) (ml : Int) (mx : Nat)
    (text : List Char) (hn : sep '\n' = true)
    (h : ∀ c ∈ text, sep c = false) :
    smartLoop sep ml mx (text.length + 1) text [] [] = ([], trimSpaceRunes text) := by
  have hnl : ∀ c ∈ text, ¬c = '\n' ∧ sep c = false := by
    intro c hc
    refine ⟨fun he => ?_, h c hc⟩
    rw [he] at hc
    rw [h '\n' hc] at hn
    cases hn
  rw [smartLoop]
  cases hrest : text.dropWhile isWS3 with
  | nil =>
    have htr : trimSpaceRunes text = [] := by
      unfold trimSpaceRunes
      rw [hrest]
      rfl
    rw [htr]
  | cons a l =>
    have hsub : ∀ c ∈ a :: l, ¬c = '\n' ∧ sep c = false := by
      intro c hc
      exact hnl c ((List.dropWhile_sublist isWS3).subset (hrest ▸ hc))
    have hfind := findNextSplitPoint_none_of_no_boundary (a :: l) mx sep hsub
    have htrim : trimSpaceRunes (a :: l) = trimSpaceRunes text := by
      unfold trimSpaceRunes
      rw [← hrest, dropWhile_self_idem]
    dsimp only
    rw [hfind]
    dsimp only
    rw [htrim]
    by_cases hlen : 0 < (trimSpaceRunes text).length
    · rw [if_pos hlen]
    · rw [if_neg hlen]
      cases hq : trimSpaceRunes text with
      | nil => rfl
      | cons x xs => rw [hq] at hlen; simp at hlen

/-! Claim theorems. -/

/-- Claim C3 (code_bug evidence): the candidate segment "ab." is rejected for
being shorter than minLen 5, but when the trailing text "cd" has no further
split point the final remainder is overwritten with "cd" instead of keeping
the rejected segment, so the rejected text is silently dropped. -/
theorem extractSmart_overwrites_remainder :
    ExtractSmartSentences tAbCd 5 100 false = ([], sCd) := by decide

/-- Claim C8 (code_bug evidence): feeding the text "a\n1. b" whole emits the
sentence "1." (the newline before the digit is a forced split and "a" is
rejected), but feeding the chunk "a\n1." followed by the previous remainder
concatenated with " b" emits "a\n1." instead, because the digit lookahead
bound nextPos < endPos-2 fails near the chunk end; the two runs produce
different sentence sequences although the cut sits outside the ordinal
lookback window. -/
theorem extractSmart_chunking_divergence :
    ExtractSmartSentences tListWhole 1 200 false = ([sOneDot], sB) ∧
    ExtractSmartSentences tListChunk1 1 200 false = ([sANlOneDot], []) ∧
    ExtractSmartSentences ([] ++ tListChunk2) 1 200 false = ([], sB) ∧
    (ExtractSmartSentences tListChunk1 1 200 false).1 ++
        (ExtractSmartSentences ([] ++ tListChunk2) 1 200 false).1 ≠
      (ExtractSmartSentences tListWhole 1 200 false).1 := by decide

/-- Claim C1 (counterexample): for extractSmart the rejected short segment
"Hi." ends up in the remainder behind the later sentence "Hello world.", so
sentences-then-remainder does not reproduce the input's non-whitespace
content in order. -/
theorem extractSmart_reconstruction_cex :
    ExtractSmartSentences tHiHelloWorld 5 100 false = ([sHelloWorldDot], sHiDot) ∧
    ((ExtractSmartSentences tHiHelloWorld 5 100 false).1.flatten ++
        (ExtractSmartSentences tHiHelloWorld 5 100 false).2).filter
        (fun c => !unicodeIsSpace c) ≠
      tHiHelloWorld.filter (fun c => !unicodeIsSpace c) := by decide

/-- Claim C2 (counterexample): the forward windowed scan returns the ordinal
period of "1. a" as a split point even though isNumberPrefix classifies it as
an ordinal marker. -/
theorem forwardScan_returns_ordinal_cex :
    findNextSplitPoint tOrdinalA 10 punctuationMap = some 1 ∧
    tOrdinalA.getD 1 nul = '.' ∧ isNumberPrefix tOrdinalA 1 = true := by decide

/-- Claim C2 (amended): only the backward boundary scan applies the ordinal
guard — whenever findLastPunctuation returns a position, the character there
is in the separator set and is not a period classified as an ordinal marker
by isNumberPrefix. -/
theorem findLastPunctuation_skips_ordinal (text : List Char) (sep : Char → Bool)
    (i : Nat) (h : findLastPunctuation text sep = some i) :
    sep (text.getD i nul) = true ∧
    ¬(text.getD i nul = '.' ∧ isNumberPrefix text i = true) :=
  findLastPunctuationAux_spec text sep text.length i h

/-- Witness for `findLastPunctuation_skips_ordinal` at the text "ab.". -/
theorem findLastPunctuation_skips_ordinal_witness :
    punctuationMap (tAbDot.getD 2 nul) = true ∧
    ¬(tAbDot.getD 2 nul = '.' ∧ isNumberPrefix tAbDot 2 = true) :=
  findLastPunctuation_skips_ordinal tAbDot punctuationMap 2 (by decide)

/-- Claim C4 (counterexample): a newline that is not followed by a digit is
skipped by the forward windowed scan even though the newline is in the active
separator set and inside the window, so the scan does not return the first
separator-set code point of the window. -/
theorem findNextSplitPoint_skips_plain_newline_cex :
    findNextSplitPoint tANlB 10 punctuationMap = none ∧
    tANlB.getD 1 nul = '\n' ∧ punctuationMap '\n' = true ∧
    1 < min 10 tANlB.length := by decide

/-- Claim C6 (counterexample): the terminal classifier
IsSentenceEndPunctuation rejects the ASCII semicolon although the strict
separator map accepts it, so the two do not realize the same claimed set. -/
theorem terminal_classifier_semicolon_cex :
    IsSentenceEndPunctuation ';' = false ∧ punctuationMap ';' = true := by decide

/-- Claim C6 (amended): exact pointwise description of the four classifiers —
the strict separator map covers period, question mark, exclamation mark,
semicolon, colon (ASCII and full-width) plus newline; the terminal classifier
covers only the period, question and exclamation forms plus newline; the
pause classifier covers the comma, semicolon and colon forms; the permissive
map is the strict map plus the comma forms. -/
theorem punctuation_classification : ∀ c : Char,
    (punctuationMap c = true ↔
      (c = '。' ∨ c = '？' ∨ c = '！' ∨ c = '；' ∨ c = '：' ∨ c = '\n' ∨
       c = '.' ∨ c = '?' ∨ c = '!' ∨ c = ';' ∨ c = ':')) ∧
    (IsSentenceEndPunctuation c = true ↔
      (c = '.' ∨ c = '。' ∨ c = '!' ∨ c = '！' ∨ c = '?' ∨ c = '？' ∨ c = '\n')) ∧
    (IsSentencePausePunctuation c = true ↔
      (c = ',' ∨ c = '，' ∨ c = ';' ∨ c = '；' ∨ c = ':' ∨ c = '：')) ∧
    (firstPunctuation c = true ↔ (punctuationMap c = true ∨ c = ',' ∨ c = '，')) := by
  intro c
  refine ⟨?_, ?_, ?_, ?_⟩ <;>
    simp [punctuationMap, IsSentenceEndPunctuation, IsSentencePausePunctuation,
      firstPunctuation, sentenceEndPunctuation, sentencePausePunctuation,
      List.any_cons, List.any_nil, beq_iff_eq] <;>
    tauto

/-- Claim C7: the permissive separator set is used exactly when isFirst is
true; on "Hi, how are you?" the first-pass call splits at the comma while the
non-first call does not. -/
theorem extractSmart_separator_selection :
    (∀ (t : List Char) (ml : Int) (mx : Nat),
      ExtractSmartSentences t ml mx true = extractSmartWithSep firstPunctuation t ml mx ∧
      ExtractSmartSentences t ml mx false = extractSmartWithSep punctuationMap t ml mx) ∧
    ExtractSmartSentences tHowAreYou 1 50 true = ([sHiComma, sHowAreYou], []) ∧
    ExtractSmartSentences tHowAreYou 1 50 false = ([tHowAreYou], []) :=
  ⟨fun _ _ _ => ⟨rfl, rfl⟩, by decide, by decide⟩

/-- Claim C10: whenever the split-point scan returns a position, it is at
least the cursor position and strictly below the text length (hence the
extraction cursor strictly increases), and with maxLen = 0 the empty window
degenerates to the unbounded fallback scan over the whole suffix. -/
theorem findNextSplitPoint_bounds :
    (∀ (text : List Char) (startPos maxLen : Nat) (sep : Char → Bool) (i : Nat),
      findNextSplitPointAbs text startPos maxLen sep = some i →
        startPos ≤ i ∧ i < text.length) ∧
    (∀ (rest : List Char) (sep : Char → Bool),
      findNextSplitPoint rest 0 sep =
        if 0 < rest.length then boundaryScan sep rest 0 else none) := by
  constructor
  · intro text startPos maxLen sep i h
    unfold findNextSplitPointAbs at h
    cases hf : findNextSplitPoint (text.drop startPos) maxLen sep with
    | none => rw [hf] at h; exact absurd h (by simp)
    | some j =>
      rw [hf] at h
      have hij : startPos + j = i := by injection h
      have hb := findNextSplitPoint_some_bound _ _ _ _ hf
      rw [List.length_drop] at hb
      omega
  · intro rest sep
    cases rest with
    | nil => simp [findNextSplitPoint, windowScan]
    | cons c l => simp [findNextSplitPoint, windowScan, List.drop_zero, Nat.zero_min]

/-- Witness for `findNextSplitPoint_bounds` at the text "a.". -/
theorem findNextSplitPoint_bounds_witness : 0 ≤ 1 ∧ 1 < tADot.length :=
  findNextSplitPoint_bounds.1 tADot 0 5 punctuationMap 1 (by decide)

/-- Claim C1 (amended): for eager extraction, the sentences concatenated in
emission order followed by the remainder reproduce the input's non-whitespace
content exactly, character for character. -/
theorem extractComplete_reconstruction : ∀ text : List Char,
    ((ExtractCompleteSentences text).1.flatten ++
        (ExtractCompleteSentences text).2).filter (fun c => !unicodeIsSpace c) =
      text.filter (fun c => !unicodeIsSpace c) := by
  intro text
  unfold ExtractCompleteSentences
  cases text with
  | nil => rfl
  | cons c rest =>
    rw [if_neg (by simp)]
    have := extractCompleteLoop_filter (c :: rest) []
    rwa [List.nil_append] at this

/-- Claim C5: eager extraction agrees with the specification-side description
(split after every terminal mark, trim, drop empty chunks, trim the
unterminated trailing piece into the remainder), and it maps
"Hello world." to (["Hello world."], ""), "Hello" to ([], "Hello"), and the
empty text to ([], ""). -/
theorem extractComplete_spec_conformance :
    (∀ text : List Char, ExtractCompleteSentences text = extractCompleteSpec text) ∧
    ExtractCompleteSentences sHelloWorldDot = ([sHelloWorldDot], []) ∧
    ExtractCompleteSentences tHello = ([], tHello) ∧
    ExtractCompleteSentences [] = ([], []) := by
  refine ⟨?_, by decide, by decide, by decide⟩
  intro text
  unfold ExtractCompleteSentences extractCompleteSpec
  cases text with
  | nil => rfl
  | cons c rest =>
    rw [if_neg (by simp)]
    rw [extractCompleteLoop_splits]
    cases hsp : (splitAfterTerminals (c :: rest)).1 with
    | nil => simp [completeJoin, hsp]
    | cons s cs => simp [completeJoin, hsp]

theorem utf8Bytes_ascii (c : Char) (h : c.toNat < 0x80) : utf8Bytes c = [c.toNat] := by
  unfold utf8Bytes
  rw [if_pos h]

theorem utf8Bytes_multi (c : Char) (h : ¬c.toNat < 0x80) :
    ∃ b0 bs, utf8Bytes c = b0 :: bs ∧ 0xC0 ≤ b0 ∧ bs ≠ [] := by
  unfold utf8Bytes
  rw [if_neg h]
  by_cases h2 : c.toNat < 0x800
  · rw [if_pos h2]
    exact ⟨_, _, rfl, by omega, by simp⟩
  · rw [if_neg h2]
    by_cases h3 : c.toNat < 0x10000
    · rw [if_pos h3]
      exact ⟨_, _, rfl, by omega, by simp⟩
    · rw [if_neg h3]
      exact ⟨_, _, rfl, by omega, by simp⟩

theorem utf8Bytes_ne_nil (c : Char) : utf8Bytes c ≠ [] := by
  by_cases h : c.toNat < 0x80
  · rw [utf8Bytes_ascii c h]
    simp
  · obtain ⟨b0, bs, heq, -, -⟩ := utf8Bytes_multi c h
    rw [heq]
    simp

theorem isDigitByte_false_of_cont (b : Nat) (h : 0xC0 ≤ b) : isDigitByte b = false := by
  unfold isDigitByte
  have hb : ¬(b ≤ 0x39) := by omega
  simp [hb]

theorem isDigitChar_eq_byte (c : Char) : isDigitChar c = isDigitByte c.toNat := by
  unfold isDigitChar isDigitByte
  congr 1

theorem digit_toNat_lt (c : Char) (h : isDigitChar c = true) : c.toNat < 0x80 := by
  unfold isDigitChar at h
  simp only [Bool.and_eq_true, decide_eq_true_eq] at h
  have h9 : c.toNat ≤ 0x39 := h.2
  omega

theorem isDigitChar_false_of_big (c : Char) (h : ¬c.toNat < 0x80) :
    isDigitChar c = false := by
  cases hq : isDigitChar c
  · rfl
  · exact absurd (digit_toNat_lt c hq) h

theorem eq_dot_of_toNat (c : Char) (h : c.toNat = 0x2E) : c = '.' := by
  rw [← Char.ofNat_toNat c, h]

theorem toNat_beq_dot (c : Char) : (c.toNat == 0x2E) = (c == '.') := by
  cases hq : (c == '.') with
  | false =>
    have hne : ¬c = '.' := by
      intro he
      rw [he] at hq
      simp at hq
    have hn : ¬c.toNat = 0x2E := fun hc => hne (eq_dot_of_toNat c hc)
    simp [hn]
  | true =>
    have he : c = '.' := by simpa using hq
    rw [he]
    rfl

theorem beq_dot_false_of_big (c : Char) (h : ¬c.toNat < 0x80) : (c == '.') = false := by
  cases hq : (c == '.') with
  | false => rfl
  | true =>
    have he : c = '.' := by simpa using hq
    rw [he] at h
    exact absurd (by decide) h

theorem numberWithDotBytes_getD_take (bs : List Nat) : bs ≠ [] →
    ((bs.getD (bs.length - 1) 0 == 0x2E) && (bs.take (bs.length - 1)).all isDigitByte) =
      bytesThenDot bs := by
  induction bs with
  | nil => intro h; exact absurd rfl h
  | cons b bs ih =>
    intro _
    cases bs with
    | nil => simp [bytesThenDot]
    | cons b' tl =>
      have hlen : (b :: b' :: tl).length - 1 = tl.length + 1 := by simp
      rw [hlen, List.getD_cons_succ, List.take_succ_cons, List.all_cons]
      have ih' := ih (by simp)
      simp only [List.length_cons, Nat.add_sub_cancel] at ih'
      rw [show bytesThenDot (b :: b' :: tl) =
        (isDigitByte b && bytesThenDot (b' :: tl)) from rfl]
      rw [← ih']
      exact Bool.and_left_comm _ _ _

theorem numberWithDotBytes_eq (bs : List Nat) :
    numberWithDotBytes bs = (decide (2 ≤ bs.length) && bytesThenDot bs) := by
  by_cases hlen : bs.length < 2
  · unfold numberWithDotBytes
    rw [if_pos (by simp [hlen])]
    have h2 : ¬(2 ≤ bs.length) := by omega
    simp [h2]
  · have h2 : 2 ≤ bs.length := by omega
    have hne : bs ≠ [] := by
      intro he
      rw [he] at h2
      simp at h2
    unfold numberWithDotBytes
    rw [← numberWithDotBytes_getD_take bs hne]
    cases hdot : (bs.getD (bs.length - 1) 0 == 0x2E) with
    | true =>
      rw [if_neg (by simp [hlen])]
      simp [h2]
    | false =>
      rw [if_pos (by simp)]
      simp

theorem bytesThenDot_flatten (l : List Char) :
    bytesThenDot ((l.map utf8Bytes).flatten) = digitsThenDot l := by
  induction l with
  | nil => rfl
  | cons c rest ih =>
    cases rest with
    | nil =>
      show bytesThenDot (utf8Bytes c ++ []) = digitsThenDot [c]
      rw [List.append_nil]
      by_cases h : c.toNat < 0x80
      · rw [utf8Bytes_ascii c h]
        show (c.toNat == 0x2E) = (c == '.')
        exact toNat_beq_dot c
      · obtain ⟨b0, bs, heq, hb0, hbs⟩ := utf8Bytes_multi c h
        rw [heq]
        cases bs with
        | nil => exact absurd rfl hbs
        | cons b1 tl =>
          show (isDigitByte b0 && bytesThenDot (b1 :: tl)) = (c == '.')
          rw [isDigitByte_false_of_cont b0 hb0, beq_dot_false_of_big c h]
          rfl
    | cons d tl =>
      have hne : ((d :: tl).map utf8Bytes).flatten ≠ [] := by
        rw [List.map_cons, List.flatten_cons]
        intro hcontra
        exact utf8Bytes_ne_nil d (List.append_eq_nil.mp hcontra).1
      show bytesThenDot (utf8Bytes c ++ ((d :: tl).map utf8Bytes).flatten) =
        (isDigitChar c && digitsThenDot (d :: tl))
      by_cases h : c.toNat < 0x80
      · rw [utf8Bytes_ascii c h]
        cases hbr : ((d :: tl).map utf8Bytes).flatten with
        | nil => exact absurd hbr hne
        | cons b' bs' =>
          show (isDigitByte c.toNat && bytesThenDot (b' :: bs')) = _
          rw [← hbr, ih, ← isDigitChar_eq_byte]
      · obtain ⟨b0, bs, heq, hb0, hbs⟩ := utf8Bytes_multi c h
        rw [heq]
        cases bs with
        | nil => exact absurd rfl hbs
        | cons b1 btl =>
          show (isDigitByte b0 && bytesThenDot (b1 :: btl ++ _)) = _
          rw [isDigitByte_false_of_cont b0 hb0, isDigitChar_false_of_big c h]
          rfl

theorem digitsThenDot_length (l : List Char) (h : digitsThenDot l = true) :
    ((l.map utf8Bytes).flatten).length = l.length := by
  induction l with
  | nil => rfl
  | cons c rest ih =>
    cases rest with
    | nil =>
      have he : c = '.' := by
        have : (c == '.') = true := h
        simpa using this
      rw [he]
      rfl
    | cons d tl =>
      have hsplit : isDigitChar c = true ∧ digitsThenDot (d :: tl) = true := by
        have : (isDigitChar c && digitsThenDot (d :: tl)) = true := h
        simpa using this
      rw [List.map_cons, List.flatten_cons, List.length_append,
        utf8Bytes_ascii c (digit_toNat_lt c hsplit.1), ih hsplit.2]
      simp only [List.length_cons, List.length_nil]
      omega

theorem isNumberWithDot_chars (s : List Char) :
    IsNumberWithDot s =
      (decide (2 ≤ (trimSpace s).length) && digitsThenDot (trimSpace s)) := by
  unfold IsNumberWithDot
  rw [numberWithDotBytes_eq, bytesThenDot_flatten]
  cases hd : digitsThenDot (trimSpace s)
  · simp
  · rw [digitsThenDot_length (trimSpace s) hd]

/-- Claim C9: every exported operation of the embedding is a total function:
the two extractors pass separator-free input through unchanged (up to edge
trimming) as the remainder with an empty sentence list rather than failing,
and isNumericOrdinal (IsNumberWithDot), whose Go body indexes the trimmed
string by bytes behind a length guard, terminates on every input and equals
the character-level description "at least two characters: a run of ASCII
digits ended by a period", treating multi-byte characters as literal
non-digit content — it accepts "12." and rejects the full-width "１２.". -/
theorem operations_total_passthrough :
    (∀ (text : List Char) (minLen : Int) (maxLen : Nat) (isFirst : Bool),
      ContainsSentenceSeparator text isFirst = false →
        ExtractSmartSentences text minLen maxLen isFirst = ([], trimSpaceRunes text) ∧
        ExtractCompleteSentences text = ([], trimSpace text)) ∧
    (∀ s : List Char, IsNumberWithDot s =
        (decide (2 ≤ (trimSpace s).length) && digitsThenDot (trimSpace s))) ∧
    IsNumberWithDot sTwelveDot = true ∧
    IsNumberWithDot tFullWidthDigits = false := by
  refine ⟨?_, isNumberWithDot_chars, by decide, by decide⟩
  intro text ml mx isF h
  unfold ContainsSentenceSeparator at h
  have hAll := List.any_eq_false.mp h
  have hend : ∀ c ∈ text, IsSentenceEndPunctuation c = false := by
    intro c hc
    cases hq : IsSentenceEndPunctuation c
    · rfl
    · exfalso
      have := hAll c hc
      cases isF
      · simp only [Bool.false_eq_true, if_false] at this
        exact this (isEnd_imp_strict c hq)
      · simp only [if_true] at this
        exact this (isEnd_imp_first c hq)
  have hcomplete : ExtractCompleteSentences text = ([], trimSpace text) := by
    unfold ExtractCompleteSentences
    cases text with
    | nil => rfl
    | cons c rest =>
      rw [if_neg (by simp)]
      rw [extractCompleteLoop_no_terminal (c :: rest) [] hend]
      rw [List.nil_append]
  refine ⟨?_, hcomplete⟩
  unfold ExtractSmartSentences extractSmartWithSep
  cases isF
  · have hsep : ∀ c ∈ text, punctuationMap c = false := by
      intro c hc
      have := hAll c hc
      simp only [Bool.false_eq_true, if_false] at this
      simpa using this
    simp only [Bool.false_eq_true, if_false]
    exact smartLoop_no_boundary punctuationMap ml mx text (by decide) hsep
  · have hsep : ∀ c ∈ text, firstPunctuation c = false := by
      intro c hc
      have := hAll c hc
      simp only [if_true] at this
      simpa using this
    simp only [if_true]
    exact smartLoop_no_boundary firstPunctuation ml mx text (by decide) hsep

/-- Witness for `operations_total_passthrough` at the text "hello world". -/
theorem operations_total_passthrough_witness :
    ContainsSentenceSeparator tHelloWorldLower false = false ∧
    (ExtractSmartSentences tHelloWorldLower 1 50 false =
        ([], trimSpaceRunes tHelloWorldLower) ∧
      ExtractCompleteSentences tHelloWorldLower = ([], trimSpace tHelloWorldLower)) :=
  ⟨by decide, operations_total_passthrough.1 tHelloWorldLower 1 50 false (by decide)⟩

theorem windowScan_eq_find (sep : Char → Bool) (W : Nat) (rest : List Char) :
    ∀ (l : List Char) (i : Nat), rest.drop i = l →
      windowScan sep W l i =
        (List.range' i (W - i)).find? (splitPointHere sep W rest) := by
  intro l
  induction l with
  | nil =>
    intro i hl
    have : ∀ x ∈ List.range' i (W - i), ¬splitPointHere sep W rest x = true := by
      intro x hx
      have hix := List.mem_range'_1.mp hx
      have hdx : rest.drop x = [] := by
        have hlen : rest.length ≤ i := by
          by_contra hlt
          push_neg at hlt
          have : (rest.drop i).length = rest.length - i := List.length_drop i rest
          rw [hl] at this
          simp at this
          omega
        exact List.drop_eq_nil_of_le (by omega)
      unfold splitPointHere
      rw [hdx]
      simp
    rw [List.find?_eq_none.mpr this]
    rfl
  | cons c l ih =>
    intro i hl
    have hnext : rest.drop (i + 1) = l := by
      rw [← List.tail_drop, hl, List.tail_cons]
    by_cases hiW : i < W
    · have hWi : W - i = (W - (i + 1)) + 1 := by omega
      have hpred : splitPointHere sep W rest i =
          (if (c == '\n') = true then
            decide ((skipSpaceTab W l (i + 1)).1 + 2 < W) &&
              headIsDigit (skipSpaceTab W l (i + 1)).2
          else sep c) := by
        unfold splitPointHere
        rw [hl]
      rw [hWi, List.range'_succ]
      rw [windowScan, if_pos hiW]
      by_cases hc : (c == '\n') = true
      · rw [if_pos hc] at hpred
        rw [if_pos hc]
        by_cases hd : (skipSpaceTab W l (i + 1)).1 + 2 < W ∧
            headIsDigit (skipSpaceTab W l (i + 1)).2 = true
        · rw [if_pos hd]
          rw [List.find?_cons_of_pos _ (by rw [hpred]; simp [hd.1, hd.2])]
        · rw [if_neg hd]
          rw [List.find?_cons_of_neg _ (by
            rw [hpred]
            intro hcontra
            simp only [Bool.and_eq_true, decide_eq_true_eq] at hcontra
            exact hd hcontra)]
          exact ih (i + 1) hnext
      · rw [if_neg hc] at hpred
        rw [if_neg hc]
        by_cases hs : sep c = true
        · rw [if_pos hs]
          rw [List.find?_cons_of_pos _ (by rw [hpred]; exact hs)]
        · rw [if_neg hs]
          rw [List.find?_cons_of_neg _ (by rw [hpred]; exact hs)]
          exact ih (i + 1) hnext
    · have hWi : W - i = 0 := by omega
      rw [windowScan, if_neg hiW, hWi]
      rfl

theorem boundaryScan_eq_find (sep : Char → Bool) (rest : List Char) :
    ∀ (l : List Char) (i : Nat), rest.drop i = l →
      boundaryScan sep l i = (List.range' i l.length).find? (boundaryHere sep rest) := by
  intro l
  induction l with
  | nil => intro i _; rfl
  | cons c l ih =>
    intro i hl
    have hnext : rest.drop (i + 1) = l := by
      rw [← List.tail_drop, hl, List.tail_cons]
    have hpred : boundaryHere sep rest i = (c == '\n' || sep c) := by
      unfold boundaryHere
      rw [hl]
    rw [boundaryScan, List.length_cons, List.range'_succ]
    by_cases hcs : (c == '\n' || sep c) = true
    · rw [if_pos hcs, List.find?_cons_of_pos _ (by rw [hpred]; exact hcs)]
    · rw [if_neg hcs, List.find?_cons_of_neg _ (by rw [hpred]; exact hcs)]
      exact ih (i + 1) hnext

/-- Claim C4 (amended): the forward windowed scan is a first-match search: it
returns the first offset in the window holding either a newline whose
following space/tab run ends, strictly before windowEnd - 2, at a digit, or a
non-newline member of the separator set (newlines failing the digit test are
skipped, and no ordinal filtering is applied); failing that, the first
newline-or-separator offset in the rest of the text; else none. -/
theorem findNextSplitPoint_first_match (rest : List Char) (maxLen : Nat)
    (sep : Char → Bool) :
    findNextSplitPoint rest maxLen sep =
      match (List.range' 0 (min maxLen rest.length)).find?
          (splitPointHere sep (min maxLen rest.length) rest) with
      | some i => some i
      | none =>
        if min maxLen rest.length < rest.length then
          (List.range' (min maxLen rest.length)
              (rest.length - min maxLen rest.length)).find? (boundaryHere sep rest)
        else none := by
  unfold findNextSplitPoint
  have hw := windowScan_eq_find sep (min maxLen rest.length) rest rest 0 (List.drop_zero rest)
  rw [Nat.sub_zero] at hw
  rw [hw]
  cases hfind : (List.range' 0 (min maxLen rest.length)).find?
      (splitPointHere sep (min maxLen rest.length) rest) with
  | some i => rfl
  | none =>
    have hb := boundaryScan_eq_find sep rest
      (rest.drop (min maxLen rest.length)) (min maxLen rest.length) rfl
    rw [List.length_drop] at hb
    show (if min maxLen rest.length < rest.length then
        boundaryScan sep (rest.drop (min maxLen rest.length)) (min maxLen rest.length)
      else none) = _
    rw [hb]
